import Mathlib

/-!
Shallow embedding of the Hong Kong rainfall monitor core
(`src/data_fetcher.py`, `src/real_time_updater.py`): the regex-based
rainfall/warning parsers, the snapshot assembler, the 24-hour history
store with its persistence round trip, and the background scheduler.
Python `datetime` instants are modelled as integer microsecond
timestamps; `isoformat`/`fromisoformat` are modelled as a fixed
injective decimal rendering together with its inverse parser, which has
the properties the repository relies on: one fixed textual format used
on both the write and the read path, with parsing inverting rendering.
Floats are modelled as rationals; all parsed inputs are small integers.
-/

namespace HKRain

/-! ## Character classes (Python `\s`, `\d` and the pattern alphabets) -/

/-- Python regex `\s` restricted to the ASCII whitespace the inputs use. -/
def isSpaceChar (c : Char) : Bool :=
  c = ' ' || c = '\t' || c = '\n' || c = '\r' || c = '\x0b' || c = '\x0c'

/-- Python regex `\d` on ASCII digits. -/
def isDigitChar (c : Char) : Bool :=
  '0' ≤ c && c ≤ '9'

/-- Decimal digit to character, `0 ↦ '0'`, ..., `9 ↦ '9'`. -/
def dchar : ℕ → Char
  | 0 => '0' | 1 => '1' | 2 => '2' | 3 => '3' | 4 => '4'
  | 5 => '5' | 6 => '6' | 7 => '7' | 8 => '8' | _ => '9'

/-- Character to decimal digit value. -/
def dval (c : Char) : ℕ := c.toNat - 48

/-! ## Decimal rendering of integers (the model of `isoformat`) -/

/-- Little-endian decimal digits of `n`; the first argument is fuel,
always called with fuel `≥ n`. -/
def natToRevDigits : ℕ → ℕ → List ℕ
  | 0, _ => []
  | fuel + 1, n => if n = 0 then [] else n % 10 :: natToRevDigits fuel (n / 10)

/-- Value of a little-endian digit list. -/
def valLE : List ℕ → ℕ
  | [] => 0
  | d :: ds => d + 10 * valLE ds

/-- Decimal rendering of a natural number, most significant digit first. -/
def natEncode (n : ℕ) : List Char :=
  if n = 0 then ['0'] else ((natToRevDigits n n).reverse).map dchar

/-- Numeric value of a big-endian digit-character list (also the model of
Python `float(...)` on the digit strings captured by the rainfall regexes). -/
def digitsVal (s : List Char) : ℕ :=
  s.foldl (fun a c => a * 10 + dval c) 0

/-- Parse a big-endian decimal digit string. -/
def decodeNat (s : List Char) : Option ℕ :=
  if s ≠ [] ∧ s.all isDigitChar then some (digitsVal s) else none

/-- Fixed textual timestamp encoding (the model of `datetime.isoformat`). -/
def encodeTs (t : ℤ) : List Char :=
  if t < 0 then '-' :: natEncode t.natAbs else natEncode t.toNat

/-- Inverse parser (the model of `datetime.fromisoformat`). -/
def decodeTs (s : List Char) : Option ℤ :=
  if s.head? = some '-' then (decodeNat s.tail).map (fun n => -(n : ℤ))
  else (decodeNat s).map (fun n => (n : ℤ))

/-! ## Substring search (Python `in` on strings, and regex search) -/

/-- Python substring test `needle in hay`. -/
def isSubstr (needle : List Char) : List Char → Bool
  | [] => needle.isEmpty
  | h :: t => needle.isPrefixOf (h :: t) || isSubstr needle t

/-- Search for the regex `warn.*\.png` inside an image `src` attribute:
some occurrence of `"warn"` followed (at or after its end) by `".png"`.
Checking the first `"warn"` occurrence is equivalent: any later
occurrence sits even further left of a trailing `".png"`. -/
def hasWarnPng : List Char → Bool
  | [] => false
  | h :: t =>
    if ("warn".toList).isPrefixOf (h :: t) then isSubstr (".png".toList) ((h :: t).drop 4)
    else hasWarnPng t

/-! ## The rainfall parser (`HKODataFetcher.fetch_rainfall_data`)

The three regex patterns of the source,

  1. `([中西東南北]+\s*[區]?)\s*(\d+)\s*毫\s*米`
  2. `([中西東南北]+\s*[區]?)\s*(\d+)\s*至\s*(\d+)\s*毫\s*米`
  3. `(九龍城|葵青|荃灣|灣仔|離島區|西貢|沙田|大埔|屯門|元朗)\s*(\d+)\s*至?\s*(\d+)?\s*毫\s*米`

are embedded as deterministic greedy matchers.  For these particular
patterns greedy matching without backtracking coincides with full regex
semantics: every repetition (`+`, `*`, `?`) is over an alphabet disjoint
from what can legally follow it, so shrinking a greedy repetition can
never turn a failure into a success.  The alternation of pattern 3 is
over district names with pairwise distinct first characters. -/

/-- The character class `[中西東南北]`. -/
def isClassChar (c : Char) : Bool :=
  c = '中' || c = '西' || c = '東' || c = '南' || c = '北'

/-- Expect one literal character. -/
def expectChar (c : Char) : List Char → Option (List Char)
  | x :: t => if x = c then some t else none
  | [] => none

/-- Trailer `\s*毫\s*米` shared by all three patterns. -/
def matchMM (s : List Char) : Option (List Char) := do
  let r1 ← expectChar '毫' (s.dropWhile isSpaceChar)
  expectChar '米' (r1.dropWhile isSpaceChar)

/-- Match pattern 1 at the head of the input; returns the two captured
groups (region, digits) and the rest of the input after the match. -/
def matchP1At (s : List Char) : Option ((List Char × List Char) × List Char) := do
  let cls := s.takeWhile isClassChar
  if cls.isEmpty then none else
  let r1 := s.dropWhile isClassChar
  let ws1 := r1.takeWhile isSpaceChar
  let r2 := r1.dropWhile isSpaceChar
  let (qu, r3) : List Char × List Char :=
    match r2 with
    | '區' :: t => (['區'], t)
    | _ => ([], r2)
  let r4 := r3.dropWhile isSpaceChar
  let ds := r4.takeWhile isDigitChar
  if ds.isEmpty then none else
  let rest ← matchMM (r4.dropWhile isDigitChar)
  pure ((cls ++ ws1 ++ qu, ds), rest)

/-- Match pattern 2 at the head of the input; returns the three captured
groups (region, low digits, high digits) and the rest. -/
def matchP2At (s : List Char) : Option ((List Char × List Char × List Char) × List Char) := do
  let cls := s.takeWhile isClassChar
  if cls.isEmpty then none else
  let r1 := s.dropWhile isClassChar
  let ws1 := r1.takeWhile isSpaceChar
  let r2 := r1.dropWhile isSpaceChar
  let (qu, r3) : List Char × List Char :=
    match r2 with
    | '區' :: t => (['區'], t)
    | _ => ([], r2)
  let r4 := r3.dropWhile isSpaceChar
  let ds1 := r4.takeWhile isDigitChar
  if ds1.isEmpty then none else
  let r5 ← expectChar '至' ((r4.dropWhile isDigitChar).dropWhile isSpaceChar)
  let r6 := r5.dropWhile isSpaceChar
  let ds2 := r6.takeWhile isDigitChar
  if ds2.isEmpty then none else
  let rest ← matchMM (r6.dropWhile isDigitChar)
  pure ((cls ++ ws1 ++ qu, ds1, ds2), rest)

/-- The alternation of pattern 3, in source order. -/
def p3Names : List (List Char) :=
  ["九龍城".toList, "葵青".toList, "荃灣".toList, "灣仔".toList, "離島區".toList,
   "西貢".toList, "沙田".toList, "大埔".toList, "屯門".toList, "元朗".toList]

/-- First alternative that is a prefix of the input, with the remainder. -/
def matchAlt : List (List Char) → List Char → Option (List Char × List Char)
  | [], _ => none
  | n :: ns, s => if n.isPrefixOf s then some (n, s.drop n.length) else matchAlt ns s

/-- Match pattern 3 at the head of the input; the third group is `[]`
when the optional second number is absent (the empty Python group). -/
def matchP3At (s : List Char) : Option ((List Char × List Char × List Char) × List Char) := do
  let (name, r1) ← matchAlt p3Names s
  let r2 := r1.dropWhile isSpaceChar
  let ds1 := r2.takeWhile isDigitChar
  if ds1.isEmpty then none else
  let r3 := (r2.dropWhile isDigitChar).dropWhile isSpaceChar
  let r4 : List Char :=
    match r3 with
    | '至' :: t => t
    | _ => r3
  let r5 := r4.dropWhile isSpaceChar
  let ds2 := r5.takeWhile isDigitChar
  let rest ← matchMM (r5.dropWhile isDigitChar)
  pure ((name, ds1, ds2), rest)

/-- Model of `re.findall`: scan left to right; on a match, record its groups and
continue after its end, otherwise advance one character.  The fuel is
always the input length, which suffices because every match here
consumes at least one character. -/
def findallF (matchAt : List Char → Option (α × List Char)) : ℕ → List Char → List α
  | 0, _ => []
  | _, [] => []
  | fuel + 1, c :: t =>
    match matchAt (c :: t) with
    | some (a, rest) => a :: findallF matchAt fuel rest
    | none => findallF matchAt fuel t

def findall (matchAt : List Char → Option (α × List Char)) (s : List Char) : List α :=
  findallF matchAt s.length s

def p1Matches (text : List Char) : List (List Char × List Char) :=
  findall matchP1At text

def p2Matches (text : List Char) : List (List Char × List Char × List Char) :=
  findall matchP2At text

def p3Matches (text : List Char) : List (List Char × List Char × List Char) :=
  findall matchP3At text

/-- A per-region record of `fetch_rainfall_data`. -/
structure RegionReading where
  min_rainfall : ℚ
  max_rainfall : ℚ
  average_rainfall : ℚ
deriving DecidableEq

/-- Reading built from a two-group (single value) match. -/
def singleReading (ds : List Char) : RegionReading :=
  ⟨(digitsVal ds : ℚ), (digitsVal ds : ℚ), (digitsVal ds : ℚ)⟩

/-- Reading built from a three-group match: the source computes
`avg = (min+max)/2` when the third group is non-empty and falls back to
the single value otherwise (`if max_rain:`). -/
def rangeReading (a b : List Char) : RegionReading :=
  if b.isEmpty then ⟨(digitsVal a : ℚ), (digitsVal a : ℚ), (digitsVal a : ℚ)⟩
  else ⟨(digitsVal a : ℚ), (digitsVal b : ℚ), ((digitsVal a : ℚ) + (digitsVal b : ℚ)) / 2⟩

/-- Python string strip restricted to the modelled whitespace. -/
def stripWs (s : List Char) : List Char :=
  ((s.dropWhile isSpaceChar).reverse.dropWhile isSpaceChar).reverse

/-- Python `dict` assignment of value `v` at key `k`: update in place when the key
exists (keeping its position), otherwise append at the tail. -/
def dictInsert {K V : Type} [DecidableEq K] (d : List (K × V)) (k : K) (v : V) :
    List (K × V) :=
  if d.any (fun p => p.1 = k) then d.map (fun p => if p.1 = k then (k, v) else p)
  else d ++ [(k, v)]

/-- First-match association lookup (Python dict indexing on the unique keys). -/
def lookupD {K V : Type} [DecidableEq K] : List (K × V) → K → Option V
  | [], _ => none
  | p :: t, k => if p.1 = k then some p.2 else lookupD t k

/-- All `(stripped region, reading)` pairs in the order in which the
nested loops of the source write them into the regions dict:
patterns in list order, matches of each pattern in text order. -/
def allPairs (text : List Char) : List (List Char × RegionReading) :=
  (p1Matches text).map (fun m => (stripWs m.1, singleReading m.2))
    ++ (p2Matches text).map (fun m => (stripWs m.1, rangeReading m.2.1 m.2.2))
    ++ (p3Matches text).map (fun m => (stripWs m.1, rangeReading m.2.1 m.2.2))

/-- The final `regions` dict. -/
def regionsOf (text : List Char) : List (List Char × RegionReading) :=
  (allPairs text).foldl (fun d p => dictInsert d p.1 p.2) []

/-- The result record of `fetch_rainfall_data` (success path). -/
structure Report where
  timestamp : ℤ
  regions : List (List Char × RegionReading)
  total_regions : ℕ
  average_rainfall : ℚ
deriving DecidableEq

/-- The parse-and-aggregate step of `fetch_rainfall_data` on the fetched
page text: `total_regions` and `average_rainfall` stay at their `0`
initialisation when no region matched, otherwise the average is the
equally weighted mean of the per-region averages. -/
def rainfallReport (now : ℤ) (text : List Char) : Report :=
  let rs := regionsOf text
  if rs.isEmpty then ⟨now, rs, 0, 0⟩
  else ⟨now, rs, rs.length, ((rs.map (fun p => p.2.average_rainfall)).sum / (rs.length : ℚ))⟩

/-! ## The warnings parser (`HKODataFetcher.fetch_weather_warnings`)

Input modelled as the `src` attributes of the page `img` tags plus the
page text.  The marker loop appends a warning kind per recognised
marker and assigns `warning_level` each time (last assignment wins);
the keyword channel then appends the kind if absent and forces `high`. -/

/-- The result record of `fetch_weather_warnings` (success path). -/
structure Warnings where
  timestamp : ℤ
  active_warnings : List String
  warning_level : String
deriving DecidableEq

/-- One iteration of the marker loop over a matching `src`. -/
def markerStep (st : List String × String) (src : List Char) : List String × String :=
  if isSubstr "ts".toList src then (st.1 ++ ["thunderstorm"], "high")
  else if isSubstr "rain".toList src then (st.1 ++ ["heavy_rain"], "medium")
  else if isSubstr "wind".toList src then (st.1 ++ ["strong_wind"], "medium")
  else st

/-- Model of `fetch_weather_warnings` on a fetched page: filter `img` sources by
`warn.*\.png`, run the marker loop, then the two keyword checks on the
lower-cased page text. -/
def warningsReport (now : ℤ) (srcs : List (List Char)) (text : List Char) : Warnings :=
  let st1 := (srcs.filter hasWarnPng).foldl markerStep ([], "none")
  let txt := text.map Char.toLower
  let st2 :=
    if isSubstr "雷暴警告".toList txt then
      ((if st1.1.contains "thunderstorm" then st1.1 else st1.1 ++ ["thunderstorm"]), "high")
    else st1
  let st3 :=
    if isSubstr "暴雨警告".toList txt then
      ((if st2.1.contains "heavy_rain" then st2.1 else st2.1 ++ ["heavy_rain"]), "high")
    else st2
  ⟨now, st3.1, st3.2⟩

/-- Severity contributed by one marker `src`, `none` when the marker is
not recognised: what the loop body would assign for that src. -/
def markerLevelOf (src : List Char) : Option String :=
  if isSubstr "ts".toList src then some "high"
  else if isSubstr "rain".toList src then some "medium"
  else if isSubstr "wind".toList src then some "medium"
  else none

/-- Specification-side characterisation of the computed level: `high`
when a keyword fires, otherwise the severity of the last recognised
marker, otherwise `none`. -/
def specWarnLevel (srcs : List (List Char)) (text : List Char) : String :=
  let txt := text.map Char.toLower
  if isSubstr "雷暴警告".toList txt || isSubstr "暴雨警告".toList txt then "high"
  else
    match ((srcs.filter hasWarnPng).reverse.findSome? markerLevelOf) with
    | some lv => lv
    | none => "none"

/-! ## The snapshot assembler (`HKODataFetcher.fetch_all_data`)

The network layer and the weather-parser payload are abstracted:
each fetcher receives the outcome of its own HTTP request and wraps any
failure into the timestamp-plus-error record (`Except.error`
here), never raising across the assembler. -/

/-- The static Hong Kong district coordinate table. -/
def hk_districts : List (String × ℚ × ℚ) :=
  [("Central & Western", 22.2855, 114.1577), ("Eastern", 22.2783, 114.2367),
   ("Southern", 22.2461, 114.1628), ("Wan Chai", 22.2767, 114.1759),
   ("Kowloon City", 22.3251, 114.1944), ("Kwun Tong", 22.3127, 114.2267),
   ("Sham Shui Po", 22.3309, 114.1639), ("Wong Tai Sin", 22.3418, 114.1946),
   ("Yau Tsim Mong", 22.3093, 114.1694), ("Islands", 22.2587, 113.9447),
   ("Kwai Tsing", 22.3573, 114.1378), ("North", 22.4964, 114.1476),
   ("Sai Kung", 22.3816, 114.2723), ("Sha Tin", 22.3817, 114.1973),
   ("Tai Po", 22.4455, 114.1645), ("Tsuen Wan", 22.3736, 114.1177),
   ("Tuen Mun", 22.3943, 113.9766), ("Yuen Long", 22.4473, 114.0305)]

/-- Model of `fetch_current_weather`: fetch the main page and parse it; the
parser for the weather payload is irrelevant to the claims and is a
parameter.  A failed request yields the error record. -/
def fetch_current_weather {W : Type} (parseW : List Char → W) (now : ℤ)
    (net : Except (List Char) (List Char)) : Except (ℤ × List Char) W :=
  match net with
  | .ok page => .ok (parseW page)
  | .error e => .error (now, e)

/-- Model of `fetch_rainfall_data`: fetch the rainfall text page and parse it. -/
def fetch_rainfall_data (now : ℤ) (net : Except (List Char) (List Char)) :
    Except (ℤ × List Char) Report :=
  match net with
  | .ok page => .ok (rainfallReport now page)
  | .error e => .error (now, e)

/-- Model of `fetch_weather_warnings`: fetch the main page (its `img` sources
and its text) and parse it. -/
def fetch_weather_warnings (now : ℤ)
    (net : Except (List Char) (List (List Char) × List Char)) :
    Except (ℤ × List Char) Warnings :=
  match net with
  | .ok page => .ok (warningsReport now page.1 page.2)
  | .error e => .error (now, e)

/-- The assembled snapshot of `fetch_all_data`. -/
structure Snapshot (W : Type) where
  fetch_time : ℤ
  current_weather : Except (ℤ × List Char) W
  rainfall_data : Except (ℤ × List Char) Report
  weather_warnings : Except (ℤ × List Char) Warnings
  district_coordinates : List (String × ℚ × ℚ)

/-- Model of `fetch_all_data`: call all three fetchers unconditionally and
collect each outcome into its own facet. -/
def fetch_all_data {W : Type} (parseW : List Char → W)
    (tAll tW tR tWa : ℤ)
    (netW : Except (List Char) (List Char))
    (netR : Except (List Char) (List Char))
    (netWa : Except (List Char) (List (List Char) × List Char)) : Snapshot W :=
  { fetch_time := tAll
    current_weather := fetch_current_weather parseW tW netW
    rainfall_data := fetch_rainfall_data tR netR
    weather_warnings := fetch_weather_warnings tWa netWa
    district_coordinates := hk_districts }

/-! ## The history store (`RealTimeUpdater`)

The `timestamp` field of a stored entry is a `datetime` for entries produced
by `fetch_and_store_data` but remains the raw ISO string for entries
returned by `load_historical_data` (the loader parses the string only
for the cutoff comparison and appends the original item).  The
heterogeneous field is modelled by `TimeVal`; comparing a string
timestamp against a `datetime` cutoff is a Python `TypeError`, modelled
as `Except.error`. -/

/-- A Python value that is either a `datetime` or the ISO string. -/
inductive TimeVal where
  | dtv (t : ℤ)
  | strv (s : List Char)
deriving DecidableEq

/-- The JSON-serialisable values occurring in a stored snapshot. -/
inductive PyVal where
  | pdt (t : ℤ)
  | pstr (s : List Char)
  | pnum (q : ℚ)
  | plist (xs : List PyVal)
  | pdict (xs : List (List Char × PyVal))

/-- One element of the in-memory history list. -/
structure Entry where
  timestamp : TimeVal
  data : PyVal

/-- The retention window `timedelta(hours=24)` in microseconds. -/
def day : ℤ := 24 * 60 * 60 * 1000000

mutual
/-- Model of `RealTimeUpdater._convert_datetimes_to_strings`. -/
def convertDT : PyVal → PyVal
  | .pdt t => .pstr (encodeTs t)
  | .pstr s => .pstr s
  | .pnum q => .pnum q
  | .plist xs => .plist (convertDTList xs)
  | .pdict xs => .pdict (convertDTPairs xs)

def convertDTList : List PyVal → List PyVal
  | [] => []
  | x :: xs => convertDT x :: convertDTList xs

def convertDTPairs : List (List Char × PyVal) → List (List Char × PyVal)
  | [] => []
  | (k, v) :: xs => (k, convertDT v) :: convertDTPairs xs
end

/-- The per-entry serialisation step of `save_historical_data`: encode
the timestamp when it is a `datetime`, leave it alone otherwise, and
stringify nested datetimes in the data. -/
def serializeEntry (e : Entry) : Entry :=
  { timestamp :=
      match e.timestamp with
      | .dtv t => .strv (encodeTs t)
      | .strv s => .strv s
    data := convertDT e.data }

/-- Model of `save_historical_data`: the JSON document written to the history
file (JSON serialisation of datetime-free values is the identity). -/
def save_historical_data (hist : List Entry) : List Entry :=
  hist.map serializeEntry

/-- The per-item step of the loader: `datetime.fromisoformat` on the raw
timestamp (failing on a non-string or unparsable one), then the cutoff
filter, keeping the *original* item.  Any failure makes the whole load
return `[]` through the `except` clause. -/
def loadGo (cutoff : ℤ) : List Entry → Except Unit (List Entry)
  | [] => .ok []
  | e :: es =>
    match e.timestamp with
    | .strv s =>
      match decodeTs s with
      | some t =>
        match loadGo cutoff es with
        | .ok r => .ok (if cutoff < t then e :: r else r)
        | .error u => .error u
      | none => .error ()
    | .dtv _ => .error ()

/-- Model of `RealTimeUpdater.load_historical_data` on a present history file. -/
def load_historical_data (file : List Entry) (now : ℤ) : List Entry :=
  match loadGo (now - day) file with
  | .ok l => l
  | .error _ => []

/-- The comparison between a stored timestamp and the cutoff: defined between
two datetimes, a `TypeError` between a string and a datetime. -/
def pyGtCutoff (tv : TimeVal) (cutoff : ℤ) : Except Unit Bool :=
  match tv with
  | .dtv t => .ok (decide (cutoff < t))
  | .strv _ => .error ()

/-- The pruning comprehension of `fetch_and_store_data`, evaluated left
to right, aborting at the first `TypeError`. -/
def pruneGo (cutoff : ℤ) : List Entry → Except Unit (List Entry)
  | [] => .ok []
  | e :: es =>
    match pyGtCutoff e.timestamp cutoff with
    | .ok b =>
      match pruneGo cutoff es with
      | .ok r => .ok (if b then e :: r else r)
      | .error u => .error u
    | .error u => .error u

/-- Model of `RealTimeUpdater.fetch_and_store_data`, restricted to its effect on
`self.historical_data`: append the new entry (timestamp is the
fetch time of the snapshot, a datetime), then replace the list by the
pruned comprehension; if the comprehension raises, the exception is
caught by the surrounding `except` and the appended-but-unpruned list
remains. -/
def fetch_and_store_data (hist : List Entry) (snap : PyVal) (fetchT now : ℤ) :
    List Entry :=
  let h1 := hist ++ [⟨.dtv fetchT, snap⟩]
  match pruneGo (now - day) h1 with
  | .ok h2 => h2
  | .error _ => h1

/-! ## The scheduler (`RealTimeUpdater.start_background_updates`)

The worker thread repeatedly calls `schedule.run_pending()` and sleeps
60 seconds.  The `schedule` library runs a due job synchronously in
that same thread and only then re-arms it at completion time plus the
configured interval, so the loop is modelled in discrete seconds by
`runLoop`: at each iteration, when the due time has been reached the
pipeline runs (its duration given by `dur` per execution index), the
next due time becomes completion + interval, and the loop resumes one
sleep later; otherwise the loop just sleeps. -/

structure SchedState where
  now : ℕ
  nextRun : ℕ

/-- Execution intervals `(start, finish)` produced by `fuel` iterations
of the worker loop; `interval` is the tick period in seconds and
`dur k` the duration of the `k`-th pipeline execution. -/
def runLoop (interval : ℕ) (dur : ℕ → ℕ) : ℕ → ℕ → SchedState → List (ℕ × ℕ)
  | 0, _, _ => []
  | fuel + 1, k, s =>
    if s.nextRun ≤ s.now then
      (s.now, s.now + dur k) ::
        runLoop interval dur fuel (k + 1) ⟨s.now + dur k + 60, s.now + dur k + interval⟩
    else
      runLoop interval dur fuel k ⟨s.now + 60, s.nextRun⟩

/-! ## Start/stop state (`start_background_updates` / `stop_background_updates`) -/

/-- The updater state touched by `start_background_updates`: the
`is_running` flag, the number of jobs registered with `schedule`, the
number of worker threads started, and the number of immediate
pipeline executions performed by `start`. -/
structure UpdState where
  is_running : Bool
  jobs : ℕ
  threads : ℕ
  immediateRuns : ℕ
deriving DecidableEq

/-- Model of `start_background_updates`: an early return when already running,
otherwise set the flag, register one scheduled job, run the pipeline
once immediately, and start one worker thread. -/
def start_background_updates (s : UpdState) : UpdState :=
  if s.is_running then s
  else ⟨true, s.jobs + 1, s.threads + 1, s.immediateRuns + 1⟩

/-- Model of `stop_background_updates`: clear the flag and the scheduled jobs. -/
def stop_background_updates (s : UpdState) : UpdState :=
  { s with is_running := false, jobs := 0 }

/-! ## Specification-side characterisations used in theorem statements -/

/-- Last value written for key `k` by a pair sequence, starting from
`init`: the "last match wins" reading of repeated dict assignment. -/
def lastWinsFrom {K V : Type} [DecidableEq K] (init : Option V)
    (ps : List (K × V)) (k : K) : Option V :=
  ps.foldl (fun acc p => if p.1 = k then some p.2 else acc) init

/-- Last value written for key `k` by a pair sequence. -/
def lastWins {K V : Type} [DecidableEq K] (ps : List (K × V)) (k : K) : Option V :=
  lastWinsFrom none ps k

/-- An execution interval `(start, finish)` is in flight at time `t`. -/
def inFlightAt (t : ℕ) (e : ℕ × ℕ) : Bool :=
  decide (e.1 ≤ t) && decide (t < e.2)

/-! ## Lemmas: the timestamp encoding round trip -/

theorem dval_dchar {d : ℕ} (h : d < 10) : dval (dchar d) = d := by
  interval_cases d <;> decide

theorem isDigitChar_dchar {d : ℕ} (h : d < 10) : isDigitChar (dchar d) = true := by
  interval_cases d <;> decide

theorem dchar_ne_minus {d : ℕ} : dchar d ≠ '-' := by
  unfold dchar
  split <;> decide

theorem valLE_natToRevDigits : ∀ (fuel n : ℕ), n ≤ fuel →
    valLE (natToRevDigits fuel n) = n := by
  intro fuel
  induction fuel with
  | zero => intro n h; simp [natToRevDigits, valLE, Nat.le_zero.mp h]
  | succ f ih =>
    intro n h
    by_cases h0 : n = 0
    · simp [natToRevDigits, valLE, h0]
    · have hlt : n / 10 < n := Nat.div_lt_self (Nat.pos_of_ne_zero h0) (by omega)
      have : n / 10 ≤ f := by omega
      simp [natToRevDigits, h0, valLE, ih _ this]
      omega

theorem natToRevDigits_lt_ten : ∀ (fuel n : ℕ), ∀ d ∈ natToRevDigits fuel n, d < 10 := by
  intro fuel
  induction fuel with
  | zero => intro n d hd; simp [natToRevDigits] at hd
  | succ f ih =>
    intro n d hd
    by_cases h0 : n = 0
    · simp [natToRevDigits, h0] at hd
    · simp only [natToRevDigits, h0, if_false, List.mem_cons] at hd
      rcases hd with h | h
      · omega
      · exact ih _ _ h

theorem natToRevDigits_ne_nil {fuel n : ℕ} (hf : 0 < fuel) (hn : n ≠ 0) :
    natToRevDigits fuel n ≠ [] := by
  cases fuel with
  | zero => omega
  | succ f => simp [natToRevDigits, hn]

theorem foldl_digits_reverse (le : List ℕ) :
    ∀ a : ℕ, (le.reverse).foldl (fun a d => a * 10 + d) a = a * 10 ^ le.length + valLE le := by
  induction le with
  | nil => intro a; simp [valLE]
  | cons d ds ih =>
    intro a
    simp only [List.reverse_cons, List.foldl_append, List.foldl_cons, List.foldl_nil,
      ih, valLE, List.length_cons]
    ring

theorem foldl_dval_map_dchar (l : List ℕ) (hl : ∀ d ∈ l, d < 10) :
    ∀ a : ℕ, (l.map dchar).foldl (fun a c => a * 10 + dval c) a =
      l.foldl (fun a d => a * 10 + d) a := by
  induction l with
  | nil => intro a; simp
  | cons d ds ih =>
    intro a
    have hd : d < 10 := hl d (by simp)
    simp only [List.map_cons, List.foldl_cons, dval_dchar hd]
    exact ih (fun x hx => hl x (by simp [hx])) _

theorem decodeNat_natEncode (n : ℕ) : decodeNat (natEncode n) = some n := by
  by_cases h0 : n = 0
  · subst h0; decide
  · have hne : natToRevDigits n n ≠ [] :=
      natToRevDigits_ne_nil (Nat.pos_of_ne_zero h0) h0
    have hdig : ∀ d ∈ natToRevDigits n n, d < 10 := natToRevDigits_lt_ten n n
    have hall : ((natToRevDigits n n).reverse.map dchar).all isDigitChar = true := by
      rw [List.all_eq_true]
      intro c hc
      rcases List.mem_map.mp hc with ⟨d, hd, rfl⟩
      exact isDigitChar_dchar (hdig d (List.mem_reverse.mp hd))
    have hnil : (natToRevDigits n n).reverse.map dchar ≠ [] := by
      simp [hne]
    have hrev : ∀ d ∈ (natToRevDigits n n).reverse, d < 10 := by
      intro d hd; exact hdig d (List.mem_reverse.mp hd)
    have hmap := foldl_dval_map_dchar ((natToRevDigits n n).reverse) hrev 0
    have hfold := foldl_digits_reverse (natToRevDigits n n) 0
    have hval := valLE_natToRevDigits n n le_rfl
    simp only [natEncode, h0, if_false, decodeNat, digitsVal, hall, hnil, ne_eq,
      not_false_iff, true_and, if_true, hmap, hfold, hval, zero_mul, zero_add]

theorem natEncode_ne_nil (n : ℕ) : natEncode n ≠ [] := by
  by_cases h0 : n = 0
  · simp [natEncode, h0]
  · have hne := natToRevDigits_ne_nil (Nat.pos_of_ne_zero h0) h0
    simp [natEncode, h0, hne]

theorem natEncode_head_ne_minus (n : ℕ) : (natEncode n).head? ≠ some '-' := by
  by_cases h0 : n = 0
  · simp [natEncode, h0]
  · have hne := natToRevDigits_ne_nil (Nat.pos_of_ne_zero h0) h0
    rcases List.exists_cons_of_ne_nil (by simpa using hne :
        (natToRevDigits n n).reverse ≠ []) with ⟨d, t, ht⟩
    simp only [natEncode, h0, if_false, ht, List.map_cons, List.head?_cons]
    intro h
    exact dchar_ne_minus (Option.some.inj h)

theorem decodeTs_encodeTs (t : ℤ) : decodeTs (encodeTs t) = some t := by
  by_cases h : t < 0
  · have h1 : ((t.natAbs : ℤ)) = -t := by omega
    simp [encodeTs, decodeTs, h, decodeNat_natEncode, h1]
  · have h1 : ((t.toNat : ℤ)) = t := by omega
    simp [encodeTs, decodeTs, h, natEncode_head_ne_minus, decodeNat_natEncode, h1]

/-! ## Lemmas: Python dict semantics -/

theorem lookupD_map_update_self {K V : Type} [DecidableEq K] (k : K) (v : V) :
    ∀ d : List (K × V), (∃ p ∈ d, p.1 = k) →
    lookupD (d.map (fun p => if p.1 = k then (k, v) else p)) k = some v := by
  intro d
  induction d with
  | nil => intro h; simp at h
  | cons p t ih =>
    intro h
    by_cases hp : p.1 = k
    · simp [lookupD, hp]
    · have ht : ∃ q ∈ t, q.1 = k := by
        rcases h with ⟨q, hq, hqk⟩
        rcases List.mem_cons.mp hq with rfl | hq2
        · exact absurd hqk hp
        · exact ⟨q, hq2, hqk⟩
      simp [lookupD, hp, ih ht]

theorem lookupD_map_update_ne {K V : Type} [DecidableEq K] {k k' : K} (v : V)
    (hne : k' ≠ k) :
    ∀ d : List (K × V),
    lookupD (d.map (fun p => if p.1 = k then (k, v) else p)) k' = lookupD d k' := by
  intro d
  induction d with
  | nil => simp [lookupD]
  | cons p t ih =>
    by_cases hp : p.1 = k
    · have h1 : p.1 ≠ k' := by rw [hp]; exact fun h => hne h.symm
      have h2 : k ≠ k' := fun h => hne h.symm
      simp [lookupD, hp, h1, h2, ih]
    · by_cases hp' : p.1 = k'
      · simp [lookupD, hp, hp', hne]
      · simp [lookupD, hp, hp', ih]

theorem lookupD_append_single {K V : Type} [DecidableEq K] (k k' : K) (v : V) :
    ∀ d : List (K × V), (∀ p ∈ d, p.1 ≠ k) →
    lookupD (d ++ [(k, v)]) k' = if k' = k then some v else lookupD d k' := by
  intro d
  induction d with
  | nil =>
    intro _
    by_cases h : k' = k
    · simp [lookupD, h]
    · simp [lookupD, Ne.symm h, h]
  | cons p t ih =>
    intro h
    have hp : p.1 ≠ k := h p (by simp)
    have ht : ∀ q ∈ t, q.1 ≠ k := fun q hq => h q (by simp [hq])
    by_cases hpk' : p.1 = k'
    · have hk : ¬ k' = k := fun hk => hp (hpk'.trans hk)
      simp [lookupD, hpk', hk]
    · simp [lookupD, hpk', ih ht]

/-- Looking up after one dict assignment. -/
theorem lookupD_dictInsert {K V : Type} [DecidableEq K] (d : List (K × V)) (k k' : K)
    (v : V) :
    lookupD (dictInsert d k v) k' = if k' = k then some v else lookupD d k' := by
  by_cases hany : d.any (fun p => decide (p.1 = k)) = true
  · have hex : ∃ p ∈ d, p.1 = k := by simpa using hany
    by_cases hk : k' = k
    · rw [hk]
      simp [dictInsert, hany, lookupD_map_update_self k v d hex]
    · simp [dictInsert, hany, lookupD_map_update_ne v hk d, hk]
  · have hf : d.any (fun p => decide (p.1 = k)) = false := by
      revert hany
      cases d.any (fun p => decide (p.1 = k)) <;> simp
    have hno : ∀ p ∈ d, p.1 ≠ k := by
      intro p hp
      have := List.any_eq_false.mp hf p hp
      simpa using this
    simp [dictInsert, hf, lookupD_append_single k k' v d hno]

/-- Looking up after a whole sequence of dict assignments: the last
assignment to the key wins. -/
theorem lookupD_foldl_dictInsert {K V : Type} [DecidableEq K] :
    ∀ (ps : List (K × V)) (d : List (K × V)) (k : K),
    lookupD (ps.foldl (fun d p => dictInsert d p.1 p.2) d) k =
      lastWinsFrom (lookupD d k) ps k := by
  intro ps
  induction ps with
  | nil => intro d k; simp [lastWinsFrom]
  | cons q t ih =>
    intro d k
    simp only [List.foldl_cons, ih, lastWinsFrom, lookupD_dictInsert]
    by_cases hq : q.1 = k
    · simp [hq]
    · have hq2 : ¬ k = q.1 := fun h => hq h.symm
      simp [hq, hq2]

theorem mem_dictInsert {K V : Type} [DecidableEq K] {x : K × V} {d : List (K × V)}
    {k : K} {v : V} (h : x ∈ dictInsert d k v) : x ∈ d ∨ x = (k, v) := by
  by_cases hany : d.any (fun p => decide (p.1 = k)) = true
  · simp only [dictInsert, hany, if_true] at h
    rcases List.mem_map.mp h with ⟨y, hy, hxy⟩
    by_cases hyk : y.1 = k
    · right; rw [← hxy]; simp [hyk]
    · left; rw [← hxy]; simpa [hyk] using hy
  · rw [dictInsert, if_neg hany] at h
    rcases List.mem_append.mp h with h1 | h1
    · exact Or.inl h1
    · exact Or.inr (List.mem_singleton.mp h1)

theorem mem_foldl_dictInsert {K V : Type} [DecidableEq K] {x : K × V} :
    ∀ (ps : List (K × V)) (d : List (K × V)),
    x ∈ ps.foldl (fun d p => dictInsert d p.1 p.2) d → x ∈ d ∨ x ∈ ps := by
  intro ps
  induction ps with
  | nil =>
    intro d h
    rw [List.foldl_nil] at h
    exact Or.inl h
  | cons q t ih =>
    intro d h
    rcases ih (dictInsert d q.1 q.2) h with h1 | h1
    · rcases mem_dictInsert h1 with h2 | h2
      · exact Or.inl h2
      · right; simp [h2]
    · right; simp [h1]

/-! ## Lemmas: shapes of parsed region readings -/

theorem mem_regionsOf_allPairs {text : List Char} {k : List Char} {r : RegionReading}
    (h : (k, r) ∈ regionsOf text) : (k, r) ∈ allPairs text := by
  rcases mem_foldl_dictInsert (allPairs text) [] h with h1 | h1
  · simp at h1
  · exact h1

theorem shape_allPairs {text : List Char} {k : List Char} {r : RegionReading}
    (h : (k, r) ∈ allPairs text) :
    (∃ m ∈ p1Matches text, k = stripWs m.1 ∧ r = singleReading m.2) ∨
    (∃ m ∈ p2Matches text, k = stripWs m.1 ∧ r = rangeReading m.2.1 m.2.2) ∨
    (∃ m ∈ p3Matches text, k = stripWs m.1 ∧ r = rangeReading m.2.1 m.2.2) := by
  simp only [allPairs, List.mem_append, List.mem_map] at h
  rcases h with (⟨m, hm, he⟩ | ⟨m, hm, he⟩) | ⟨m, hm, he⟩
  · injection he with h1 h2
    exact Or.inl ⟨m, hm, h1.symm, h2.symm⟩
  · injection he with h1 h2
    exact Or.inr (Or.inl ⟨m, hm, h1.symm, h2.symm⟩)
  · injection he with h1 h2
    exact Or.inr (Or.inr ⟨m, hm, h1.symm, h2.symm⟩)

theorem singleReading_avg (ds : List Char) :
    (singleReading ds).average_rainfall =
      ((singleReading ds).min_rainfall + (singleReading ds).max_rainfall) / 2 := by
  show ((digitsVal ds : ℚ)) = ((digitsVal ds : ℚ) + (digitsVal ds : ℚ)) / 2
  ring

theorem rangeReading_avg (a b : List Char) :
    (rangeReading a b).average_rainfall =
      ((rangeReading a b).min_rainfall + (rangeReading a b).max_rainfall) / 2 := by
  by_cases hb : b.isEmpty
  · rw [rangeReading, if_pos hb]
    show ((digitsVal a : ℚ)) = ((digitsVal a : ℚ) + (digitsVal a : ℚ)) / 2
    ring
  · rw [rangeReading, if_neg hb]

theorem singleReading_min_max (ds : List Char) :
    (singleReading ds).min_rainfall = (singleReading ds).max_rainfall := rfl

theorem reading_avg_half {text : List Char} {k : List Char} {r : RegionReading}
    (h : (k, r) ∈ regionsOf text) :
    r.average_rainfall = (r.min_rainfall + r.max_rainfall) / 2 := by
  rcases shape_allPairs (mem_regionsOf_allPairs h) with
    ⟨m, _, _, hr⟩ | ⟨m, _, _, hr⟩ | ⟨m, _, _, hr⟩
  · rw [hr]; exact singleReading_avg m.2
  · rw [hr]; exact rangeReading_avg m.2.1 m.2.2
  · rw [hr]; exact rangeReading_avg m.2.1 m.2.2

theorem rangeReading_bounds_nonneg (a b : List Char) :
    0 ≤ (rangeReading a b).min_rainfall ∧ 0 ≤ (rangeReading a b).max_rainfall := by
  by_cases hb : b.isEmpty
  · rw [rangeReading, if_pos hb]
    exact ⟨Nat.cast_nonneg _, Nat.cast_nonneg _⟩
  · rw [rangeReading, if_neg hb]
    exact ⟨Nat.cast_nonneg _, Nat.cast_nonneg _⟩

theorem reading_bounds_nonneg {text : List Char} {k : List Char} {r : RegionReading}
    (h : (k, r) ∈ regionsOf text) :
    0 ≤ r.min_rainfall ∧ 0 ≤ r.max_rainfall := by
  rcases shape_allPairs (mem_regionsOf_allPairs h) with
    ⟨m, _, _, hr⟩ | ⟨m, _, _, hr⟩ | ⟨m, _, _, hr⟩
  · rw [hr]; exact ⟨Nat.cast_nonneg _, Nat.cast_nonneg _⟩
  · rw [hr]; exact rangeReading_bounds_nonneg m.2.1 m.2.2
  · rw [hr]; exact rangeReading_bounds_nonneg m.2.1 m.2.2

/-! ## Lemmas: the warning-level fold -/

theorem findSomeQ_append_of_some {α β : Type} {f : α → Option β} {l₁ l₂ : List α}
    {b : β} (h : l₁.findSome? f = some b) : (l₁ ++ l₂).findSome? f = some b := by
  induction l₁ with
  | nil => simp [List.findSome?] at h
  | cons a t ih =>
    rw [List.cons_append]
    rw [List.findSome?] at h ⊢
    cases hfa : f a with
    | some c => rw [hfa] at h; exact h ▸ rfl
    | none => rw [hfa] at h; exact ih h

theorem findSomeQ_append_of_none {α β : Type} {f : α → Option β} {l₁ l₂ : List α}
    (h : l₁.findSome? f = none) : (l₁ ++ l₂).findSome? f = l₂.findSome? f := by
  induction l₁ with
  | nil => simp
  | cons a t ih =>
    rw [List.cons_append]
    rw [List.findSome?] at h ⊢
    cases hfa : f a with
    | some c => rw [hfa] at h; exact absurd h (by simp)
    | none => rw [hfa] at h; exact ih h

/-- One marker-loop step assigns exactly the severity of its marker. -/
theorem markerStep_snd (st : List String × String) (src : List Char) :
    (markerStep st src).2 =
      match markerLevelOf src with
      | some lv => lv
      | none => st.2 := by
  unfold markerStep markerLevelOf
  by_cases h1 : isSubstr ['t', 's'] src
  · simp [h1]
  · by_cases h2 : isSubstr ['r', 'a', 'i', 'n'] src
    · simp [h1, h2]
    · by_cases h3 : isSubstr ['w', 'i', 'n', 'd'] src
      · simp [h1, h2, h3]
      · simp [h1, h2, h3]

/-- The `warning_level` mutated across the marker loop equals the
severity of the last recognised marker. -/
theorem foldl_markerStep_snd :
    ∀ (l : List (List Char)) (st : List String × String),
    (l.foldl markerStep st).2 =
      match l.reverse.findSome? markerLevelOf with
      | some lv => lv
      | none => st.2 := by
  intro l
  induction l with
  | nil => intro st; simp
  | cons x xs ih =>
    intro st
    rw [List.foldl_cons, ih (markerStep st x), List.reverse_cons]
    cases hxs : xs.reverse.findSome? markerLevelOf with
    | some lv => rw [findSomeQ_append_of_some hxs]
    | none =>
      rw [findSomeQ_append_of_none hxs]
      rw [markerStep_snd st x]
      cases hx : markerLevelOf x with
      | some lv => simp [List.findSome?, hx]
      | none => simp [List.findSome?, hx]

/-! ## Lemmas: the scheduler loop -/

theorem runLoop_start_lb (interval : ℕ) (dur : ℕ → ℕ) :
    ∀ (fuel k : ℕ) (s : SchedState), ∀ e ∈ runLoop interval dur fuel k s,
      s.nextRun ≤ e.1 ∧ s.now ≤ e.1 ∧ e.1 ≤ e.2 := by
  intro fuel
  induction fuel with
  | zero => intro k s e he; simp [runLoop] at he
  | succ f ih =>
    intro k s e he
    rw [runLoop] at he
    by_cases hdue : s.nextRun ≤ s.now
    · rw [if_pos hdue] at he
      rcases List.mem_cons.mp he with rfl | he2
      · exact ⟨hdue, le_rfl, Nat.le_add_right _ _⟩
      · rcases ih (k + 1) ⟨s.now + dur k + 60, s.now + dur k + interval⟩ e he2 with
          ⟨h1, h2, h3⟩
        simp only at h1 h2
        refine ⟨?_, ?_, h3⟩ <;> omega
    · rw [if_neg hdue] at he
      rcases ih k ⟨s.now + 60, s.nextRun⟩ e he with ⟨h1, h2, h3⟩
      simp only at h1 h2
      refine ⟨h1, ?_, h3⟩
      omega

/-- Consecutive pipeline executions are separated by at least one full
interval after the earlier one completes: ticks that fire during or too
soon after an execution are skipped, never queued. -/
theorem runLoop_pairwise (interval : ℕ) (dur : ℕ → ℕ) :
    ∀ (fuel k : ℕ) (s : SchedState),
    List.Pairwise (fun a b => a.2 + interval ≤ b.1) (runLoop interval dur fuel k s) := by
  intro fuel
  induction fuel with
  | zero => intro k s; simp [runLoop]
  | succ f ih =>
    intro k s
    rw [runLoop]
    by_cases hdue : s.nextRun ≤ s.now
    · rw [if_pos hdue]
      refine List.Pairwise.cons ?_ (ih (k + 1) _)
      intro e he
      rcases runLoop_start_lb interval dur f (k + 1)
        ⟨s.now + dur k + 60, s.now + dur k + interval⟩ e he with ⟨h1, _, _⟩
      simp only at h1
      omega
    · rw [if_neg hdue]
      exact ih k _

theorem countP_inFlight_le_one :
    ∀ (l : List (ℕ × ℕ)), List.Pairwise (fun a b => a.2 ≤ b.1) l →
    ∀ t, l.countP (inFlightAt t) ≤ 1 := by
  intro l
  induction l with
  | nil => intro _ t; simp
  | cons a as ih =>
    intro hpw t
    rcases List.pairwise_cons.mp hpw with ⟨hrel, hpw2⟩
    rw [List.countP_cons]
    by_cases ha : inFlightAt t a
    · have hzero : as.countP (inFlightAt t) = 0 := by
        rw [List.countP_eq_zero]
        intro b hb
        have hab : a.2 ≤ b.1 := hrel b hb
        have ht : a.1 ≤ t ∧ t < a.2 := by
          simpa [inFlightAt] using ha
        simp only [inFlightAt, Bool.and_eq_true, decide_eq_true_eq]
        rintro ⟨hb1, _⟩
        omega
      simp [hzero, ha]
    · simp only [ha, if_neg]
      simpa using ih hpw2 t

/-! ## Lemmas: persistence round trip -/

theorem loadGo_save (now : ℤ) :
    ∀ hist : List Entry,
    (∀ e ∈ hist, ∃ t, e.timestamp = .dtv t ∧ now - day < t) →
    loadGo (now - day) (save_historical_data hist) =
      .ok (save_historical_data hist) := by
  intro hist
  induction hist with
  | nil => intro _; simp [save_historical_data, loadGo]
  | cons e es ih =>
    intro h
    rcases h e (by simp) with ⟨t, ht, hcut⟩
    have hes : ∀ x ∈ es, ∃ t, x.timestamp = .dtv t ∧ now - day < t :=
      fun x hx => h x (by simp [hx])
    simp only [save_historical_data, List.map_cons] at ih ⊢
    simp only [loadGo, serializeEntry, ht, decodeTs_encodeTs, ih hes]
    simp [hcut]

/-! ## Claim theorems -/

/-- C2: at every moment at most one pipeline execution is in flight;
a tick that fires before the previous execution has completed is
skipped, never queued: consecutive executions of the worker loop are
separated by at least one full interval after the earlier one
completes, so their in-flight windows are pairwise disjoint. -/
theorem thmC2_single_flight :
    ∀ (interval : ℕ) (dur : ℕ → ℕ) (fuel k : ℕ) (s : SchedState),
    List.Pairwise (fun a b => a.2 + interval ≤ b.1) (runLoop interval dur fuel k s) ∧
    ∀ t : ℕ, (runLoop interval dur fuel k s).countP (inFlightAt t) ≤ 1 := by
  intro interval dur fuel k s
  refine ⟨runLoop_pairwise interval dur fuel k s, ?_⟩
  intro t
  apply countP_inFlight_le_one
  exact (runLoop_pairwise interval dur fuel k s).imp (fun {a b} h => by omega)

/-- C10: calling `start_background_updates` while already running is a
no-op (the state, including job, thread and immediate-run counters, is
unchanged), and any number of repeated starts is equivalent to a
single start. -/
theorem thmC10_start_idempotent :
    ∀ s : UpdState,
    (s.is_running = true → start_background_updates s = s) ∧
    ∀ n : ℕ, start_background_updates^[n + 1] s = start_background_updates s := by
  intro s
  have hrun : s.is_running = true → start_background_updates s = s := by
    intro h
    simp [start_background_updates, h]
  refine ⟨hrun, ?_⟩
  have hstep : start_background_updates (start_background_updates s) =
      start_background_updates s := by
    by_cases h : s.is_running
    · simp [start_background_updates, h]
    · simp [start_background_updates, h]
  intro n
  induction n with
  | zero => simp
  | succ m ih =>
    rw [Function.iterate_succ_apply', ih, hstep]

/-- C10 witness: a concrete already-running state on which `start` is
evaluated to be the identity. -/
theorem thmC10_witness :
    start_background_updates ⟨true, 1, 1, 1⟩ = ⟨true, 1, 1, 1⟩ :=
  (thmC10_start_idempotent ⟨true, 1, 1, 1⟩).1 rfl

/-- C7: the assembler fills the three facets independently: when the
warnings request fails and the rainfall request succeeds, the snapshot
carries the parsed rainfall report together with the explicit error
record for the warnings facet, and each facet depends only on its own
request outcome. -/
theorem thmC7_partial_failure :
    ∀ (W : Type) (parseW : List Char → W) (tAll tW tR tWa : ℤ)
      (netW : Except (List Char) (List Char)) (rtext e : List Char)
      (netWa : Except (List Char) (List (List Char) × List Char)),
    netWa = .error e →
    (fetch_all_data parseW tAll tW tR tWa netW (.ok rtext) netWa).rainfall_data =
        .ok (rainfallReport tR rtext) ∧
    (fetch_all_data parseW tAll tW tR tWa netW (.ok rtext) netWa).weather_warnings =
        .error (tWa, e) ∧
    (∀ (netR₂ : Except (List Char) (List Char))
       (netWa₂ : Except (List Char) (List (List Char) × List Char)),
       (fetch_all_data parseW tAll tW tR tWa netW netR₂ netWa₂).current_weather =
         fetch_current_weather parseW tW netW ∧
       (fetch_all_data parseW tAll tW tR tWa netW netR₂ netWa₂).rainfall_data =
         fetch_rainfall_data tR netR₂ ∧
       (fetch_all_data parseW tAll tW tR tWa netW netR₂ netWa₂).weather_warnings =
         fetch_weather_warnings tWa netWa₂) := by
  intro W parseW tAll tW tR tWa netW rtext e netWa hWa
  subst hWa
  exact ⟨rfl, rfl, fun _ _ => ⟨rfl, rfl, rfl⟩⟩

/-- C7 witness: a concrete snapshot assembled from a failed warnings
request and a successful (empty-text) rainfall request. -/
theorem thmC7_witness :
    (fetch_all_data (fun _ => ()) 0 0 0 0 (.ok []) (.ok [])
        (.error "timeout".toList)).rainfall_data = .ok (rainfallReport 0 []) ∧
    (fetch_all_data (fun _ => ()) 0 0 0 0 (.ok []) (.ok [])
        (.error "timeout".toList)).weather_warnings = .error (0, "timeout".toList) :=
  ⟨(thmC7_partial_failure Unit (fun _ => ()) 0 0 0 0 (.ok []) [] "timeout".toList
      _ rfl).1,
   (thmC7_partial_failure Unit (fun _ => ()) 0 0 0 0 (.ok []) [] "timeout".toList
      _ rfl).2.1⟩

/-- C5: pattern list order is a priority order: the final `regions`
value for every key is the value written by the last pattern match
(in pattern-then-text order) producing that key; concretely, on a text
where pattern 1 and pattern 2 both match `南區`, the later pattern 2
range overwrites the pattern 1 single value. -/
theorem thmC5_last_match_wins :
    (∀ (text k : List Char), lookupD (regionsOf text) k = lastWins (allPairs text) k) ∧
    regionsOf "南區2毫米，南區2至6毫米".toList =
      [("南區".toList, RegionReading.mk 2 6 4)] := by
  constructor
  · intro text k
    rw [regionsOf, lastWins, lookupD_foldl_dictInsert]
    rfl
  · have hreg : regionsOf "南區2毫米，南區2至6毫米".toList =
        [("南區".toList, rangeReading ['2'] ['6'])] := rfl
    have h2 : digitsVal ['2'] = 2 := rfl
    have h6 : digitsVal ['6'] = 6 := rfl
    have hval : rangeReading ['2'] ['6'] = ⟨2, 6, 4⟩ := by
      rw [rangeReading, if_neg (by decide), h2, h6]
      simp only [RegionReading.mk.injEq]
      norm_num
    rw [hreg, hval]

/-- C3 counterexample: on the text `西貢0毫米` the parsed report has a
non-empty regions map and a report average of `0`, so the report
average being `0` does not imply that `regions` is empty. -/
theorem thmC3_cex :
    (rainfallReport 0 "西貢0毫米".toList).average_rainfall = 0 ∧
    (rainfallReport 0 "西貢0毫米".toList).regions ≠ [] := by
  have hreg : regionsOf "西貢0毫米".toList = [("西貢".toList, rangeReading ['0'] [])] :=
    rfl
  have h0 : digitsVal ['0'] = 0 := rfl
  have hval : rangeReading ['0'] [] = ⟨0, 0, 0⟩ := by
    rw [rangeReading, if_pos (by decide), h0]
    simp only [RegionReading.mk.injEq]
    norm_num
  constructor
  · simp only [rainfallReport, hreg, hval, List.isEmpty_cons, if_neg]
    simp
  · simp only [rainfallReport, hreg]
    simp

/-- C3 (amended): the report average equals the equally weighted mean
of the per-region averages (with the `0/0 = 0` convention for the empty
map), and it is `0` when `regions` is empty; the converse fails, since
a non-empty all-zero region map also averages to `0`. -/
theorem thmC3_amended :
    ∀ (now : ℤ) (text : List Char),
    (rainfallReport now text).average_rainfall =
      (((rainfallReport now text).regions.map (fun p => p.2.average_rainfall)).sum /
        (((rainfallReport now text).regions.length : ℚ))) ∧
    ((rainfallReport now text).regions = [] →
      (rainfallReport now text).average_rainfall = 0) := by
  intro now text
  by_cases h : (regionsOf text).isEmpty
  · have hnil : regionsOf text = [] := by
      cases hr : regionsOf text with
      | nil => rfl
      | cons a t => rw [hr] at h; simp at h
    simp [rainfallReport, h, hnil]
  · have hne : ¬ regionsOf text = [] := by
      intro hr; rw [hr] at h; simp at h
    constructor
    · simp [rainfallReport, h]
    · intro hr
      simp only [rainfallReport, h, if_neg] at hr
      simp at hr
      exact absurd hr hne

/-- C3 witness: a text with no region match, on which the amended
theorem's empty-map implication is discharged concretely. -/
theorem thmC3_witness :
    (rainfallReport 0 "abc".toList).regions = [] ∧
    (rainfallReport 0 "abc".toList).average_rainfall = 0 := by
  have hr : (rainfallReport 0 "abc".toList).regions = [] := rfl
  exact ⟨hr, (thmC3_amended 0 "abc".toList).2 hr⟩

/-- C4: every region reading satisfies `avg = (min + max) / 2`; a
single-value match yields `avg = min = max`; a two-bound range match
uses the two parsed bounds with `avg` their exact midpoint; and the
concrete text containing `中西區1毫米` and `西貢0至5毫米` parses to
exactly the two claimed readings with report average `1.75`. -/
theorem thmC4_reading_invariants :
    (∀ (text k : List Char) (r : RegionReading), (k, r) ∈ regionsOf text →
       r.average_rainfall = (r.min_rainfall + r.max_rainfall) / 2) ∧
    (∀ ds : List Char,
       (singleReading ds).average_rainfall = (singleReading ds).min_rainfall ∧
       (singleReading ds).min_rainfall = (singleReading ds).max_rainfall) ∧
    (∀ a b : List Char, ¬ b.isEmpty = true →
       (rangeReading a b).min_rainfall = (digitsVal a : ℚ) ∧
       (rangeReading a b).max_rainfall = (digitsVal b : ℚ) ∧
       (rangeReading a b).average_rainfall =
         ((digitsVal a : ℚ) + (digitsVal b : ℚ)) / 2) ∧
    regionsOf "中西區1毫米，西貢0至5毫米".toList =
      [("中西區".toList, RegionReading.mk 1 1 1),
       ("西貢".toList, RegionReading.mk 0 5 (5 / 2))] ∧
    (rainfallReport 0 "中西區1毫米，西貢0至5毫米".toList).average_rainfall = 7 / 4 := by
  have hreg : regionsOf "中西區1毫米，西貢0至5毫米".toList =
      [("中西區".toList, singleReading ['1']),
       ("西貢".toList, rangeReading ['0'] ['5'])] := rfl
  have h1 : digitsVal ['1'] = 1 := rfl
  have h0 : digitsVal ['0'] = 0 := rfl
  have h5 : digitsVal ['5'] = 5 := rfl
  have hv1 : singleReading ['1'] = ⟨1, 1, 1⟩ := by
    rw [singleReading, h1]
    simp only [RegionReading.mk.injEq]
    norm_num
  have hv2 : rangeReading ['0'] ['5'] = ⟨0, 5, 5 / 2⟩ := by
    rw [rangeReading, if_neg (by decide), h0, h5]
    simp only [RegionReading.mk.injEq]
    norm_num
  have hreg2 : regionsOf "中西區1毫米，西貢0至5毫米".toList =
      [("中西區".toList, RegionReading.mk 1 1 1),
       ("西貢".toList, RegionReading.mk 0 5 (5 / 2))] := by
    rw [hreg, hv1, hv2]
  refine ⟨fun text k r h => reading_avg_half h, ?_, ?_, hreg2, ?_⟩
  · intro ds
    exact ⟨rfl, rfl⟩
  · intro a b hb
    rw [rangeReading, if_neg hb]
    exact ⟨rfl, rfl, rfl⟩
  · simp only [rainfallReport, hreg2, List.isEmpty_cons, if_neg]
    simp
    norm_num

/-- C4 witness: the general midpoint invariant applied to the reading
actually parsed for `中西區` out of the concrete example text. -/
theorem thmC4_witness :
    (("中西區".toList, RegionReading.mk 1 1 1) ∈
        regionsOf "中西區1毫米，西貢0至5毫米".toList) ∧
    (RegionReading.mk 1 1 1 : RegionReading).average_rainfall =
      ((RegionReading.mk 1 1 1 : RegionReading).min_rainfall +
        (RegionReading.mk 1 1 1 : RegionReading).max_rainfall) / 2 := by
  have hmem : ("中西區".toList, RegionReading.mk 1 1 1) ∈
      regionsOf "中西區1毫米，西貢0至5毫米".toList := by
    rw [thmC4_reading_invariants.2.2.2.1]
    simp
  exact ⟨hmem, thmC4_reading_invariants.1 _ _ _ hmem⟩

/-- C9 counterexample: the descending range text `西貢5至2毫米` parses
to a reading with `max_rainfall = 2 < 5 = min_rainfall`, refuting the
unconditional bound invariant. -/
theorem thmC9_cex :
    (("西貢".toList, RegionReading.mk 5 2 (7 / 2)) ∈
        regionsOf "西貢5至2毫米".toList) ∧
    (RegionReading.mk 5 2 (7 / 2) : RegionReading).max_rainfall <
      (RegionReading.mk 5 2 (7 / 2) : RegionReading).min_rainfall := by
  have hreg : regionsOf "西貢5至2毫米".toList =
      [("西貢".toList, rangeReading ['5'] ['2'])] := rfl
  have h5 : digitsVal ['5'] = 5 := rfl
  have h2 : digitsVal ['2'] = 2 := rfl
  have hval : rangeReading ['5'] ['2'] = ⟨5, 2, 7 / 2⟩ := by
    rw [rangeReading, if_neg (by decide), h5, h2]
    simp only [RegionReading.mk.injEq]
    norm_num
  constructor
  · rw [hreg, hval]
    simp
  · show (2 : ℚ) < 5
    norm_num

/-- C9 (amended): every parsed reading has non-negative bounds, and
`min ≤ max` holds provided every textual range is non-descending (the
code copies the two captured numbers verbatim, so a descending range
yields `max < min`). -/
theorem thmC9_amended :
    ∀ text : List Char,
    (∀ m ∈ p2Matches text, (digitsVal m.2.1 : ℚ) ≤ (digitsVal m.2.2 : ℚ)) →
    (∀ m ∈ p3Matches text, ¬ m.2.2.isEmpty = true →
      (digitsVal m.2.1 : ℚ) ≤ (digitsVal m.2.2 : ℚ)) →
    ∀ (k : List Char) (r : RegionReading), (k, r) ∈ regionsOf text →
      0 ≤ r.min_rainfall ∧ r.min_rainfall ≤ r.max_rainfall := by
  intro text hp2 hp3 k r h
  refine ⟨(reading_bounds_nonneg h).1, ?_⟩
  rcases shape_allPairs (mem_regionsOf_allPairs h) with
    ⟨m, hm, _, hr⟩ | ⟨m, hm, _, hr⟩ | ⟨m, hm, _, hr⟩
  · rw [hr, singleReading_min_max]
  · rw [hr]
    by_cases hb : m.2.2.isEmpty
    · rw [rangeReading, if_pos hb]
    · rw [rangeReading, if_neg hb]
      exact hp2 m hm
  · rw [hr]
    by_cases hb : m.2.2.isEmpty
    · rw [rangeReading, if_pos hb]
    · rw [rangeReading, if_neg hb]
      exact hp3 m hm hb

/-- C9 witness: the amended theorem applied to the example text, whose
only range (`0` to `5`) is non-descending. -/
theorem thmC9_witness :
    0 ≤ (RegionReading.mk 1 1 1 : RegionReading).min_rainfall ∧
    (RegionReading.mk 1 1 1 : RegionReading).min_rainfall ≤
      (RegionReading.mk 1 1 1 : RegionReading).max_rainfall := by
  have hp2 : p2Matches "中西區1毫米，西貢0至5毫米".toList = [] := rfl
  have hp3 : p3Matches "中西區1毫米，西貢0至5毫米".toList =
      [("西貢".toList, "0".toList, "5".toList)] := rfl
  have hreg : regionsOf "中西區1毫米，西貢0至5毫米".toList =
      [("中西區".toList, singleReading ['1']),
       ("西貢".toList, rangeReading ['0'] ['5'])] := rfl
  have h1 : digitsVal ['1'] = 1 := rfl
  have hv1 : singleReading ['1'] = ⟨1, 1, 1⟩ := by
    rw [singleReading, h1]
    simp only [RegionReading.mk.injEq]
    norm_num
  have hmem : (("中西區".toList, RegionReading.mk 1 1 1) ∈
      regionsOf "中西區1毫米，西貢0至5毫米".toList) := by
    rw [hreg, hv1]
    simp
  refine thmC9_amended "中西區1毫米，西貢0至5毫米".toList ?_ ?_ _ _ hmem
  · intro m hm
    rw [hp2] at hm
    simp at hm
  · intro m hm _
    rw [hp3] at hm
    simp only [List.mem_singleton] at hm
    subst hm
    show ((digitsVal ['0'] : ℚ)) ≤ (digitsVal ['5'] : ℚ)
    rw [show digitsVal ['0'] = 0 from rfl, show digitsVal ['5'] = 5 from rfl]
    norm_num

/-- C6 counterexample: a thunderstorm marker followed by a wind marker
(and no warning keyword) produces the warning set
`{thunderstorm, strong_wind}` with level `medium`, not the claimed
maximum severity `high`: the last assignment of the marker loop to the
level wins, so the level is order-dependent. -/
theorem thmC6_cex :
    (warningsReport 0 ["warn_ts.png".toList, "warn_wind.png".toList] []).active_warnings
        = ["thunderstorm", "strong_wind"] ∧
    (warningsReport 0 ["warn_ts.png".toList, "warn_wind.png".toList] []).warning_level
        = "medium" :=
  ⟨rfl, rfl⟩

/-- C6 (amended): the computed level is `high` when a thunderstorm or
heavy-rain keyword occurs in the text, otherwise it is the severity
assigned by the last recognised warning marker (`ts` markers assign
`high`, `rain` and `wind` markers assign `medium`), and `none` with no
keyword and no recognised marker; in particular a wind marker alone
gives `medium` and no signals give `none`, but the level is not
order-independent over the warning set. -/
theorem thmC6_amended :
    ∀ (now : ℤ) (srcs : List (List Char)) (text : List Char),
    (warningsReport now srcs text).warning_level = specWarnLevel srcs text ∧
    (warningsReport now ["warn_wind.png".toList] []).active_warnings =
      ["strong_wind"] ∧
    (warningsReport now ["warn_wind.png".toList] []).warning_level = "medium" ∧
    (warningsReport now [] []).active_warnings = [] ∧
    (warningsReport now [] []).warning_level = "none" := by
  intro now srcs text
  refine ⟨?_, rfl, rfl, rfl, rfl⟩
  unfold warningsReport specWarnLevel
  by_cases h1 : isSubstr ['雷', '暴', '警', '告'] (List.map Char.toLower text)
  · by_cases h2 : isSubstr ['暴', '雨', '警', '告'] (List.map Char.toLower text)
    · simp [h1, h2]
    · simp [h1, h2]
  · by_cases h2 : isSubstr ['暴', '雨', '警', '告'] (List.map Char.toLower text)
    · simp [h1, h2]
    · simp only [h1, h2, if_false, Bool.false_eq_true, Bool.or_self]
      simp [h1, h2]
      exact foldl_markerStep_snd (srcs.filter hasWarnPng) ([], "none")

/-- C1 evaluation at the failing input: a history file holding one
in-window entry (timestamp 77 h, loaded at 100 h) is kept by `load`
with its *string* timestamp; a subsequent `fetch_and_store_data` at
102 h appends the new entry but its pruning comprehension raises a
`TypeError` on the string timestamp, so the 77 h entry — by then older
than the 102 h − 24 h cutoff — survives the completed call. -/
theorem thmC1_eval :
    load_historical_data [⟨.strv (encodeTs 277200000000), .pnum 0⟩] 360000000000 =
      [⟨.strv (encodeTs 277200000000), .pnum 0⟩] ∧
    fetch_and_store_data [⟨.strv (encodeTs 277200000000), .pnum 0⟩] (.pnum 0)
        367200000000 367200000000 =
      [⟨.strv (encodeTs 277200000000), .pnum 0⟩, ⟨.dtv 367200000000, .pnum 0⟩] ∧
    decodeTs (encodeTs 277200000000) = some 277200000000 ∧
    (277200000000 : ℤ) < 367200000000 - day := by
  have hcut : ((360000000000 : ℤ) - day < 277200000000) := by norm_num [day]
  refine ⟨?_, ?_, decodeTs_encodeTs _, by norm_num [day]⟩
  · simp only [load_historical_data, loadGo, decodeTs_encodeTs]
    simp [hcut]
  · simp only [fetch_and_store_data, List.cons_append, List.nil_append, pruneGo,
      pyGtCutoff]

/-- C8 counterexample: persisting and re-loading a one-entry in-window
history does not return the identical entry: the loaded entry carries
the ISO *string* timestamp produced on write, not the original
`datetime` value. -/
theorem thmC8_cex :
    load_historical_data (save_historical_data [⟨.dtv 0, .pnum 0⟩]) 0 ≠
      [⟨.dtv 0, .pnum 0⟩] := by
  have h : load_historical_data (save_historical_data [⟨.dtv 0, .pnum 0⟩]) 0 =
      [⟨.strv (encodeTs 0), .pnum 0⟩] := by
    have hc : ((0 : ℤ) - day < 0) := by norm_num [day]
    have hd : (0 : ℤ) < day := by norm_num [day]
    simp only [save_historical_data, List.map_cons, List.map_nil, serializeEntry,
      convertDT, load_historical_data, loadGo, decodeTs_encodeTs]
    simp [hc, hd]
  rw [h]
  intro hEq
  simp only [List.cons.injEq, Entry.mk.injEq] at hEq
  exact absurd hEq.1.1 (by simp)

/-- C8 (amended): persisting and loading an in-window history drops
nothing, keeps the order, and returns exactly the *serialized* form of
every entry (timestamps as their fixed ISO encoding), and the single
fixed decoder inverts the single fixed encoder exactly. -/
theorem thmC8_amended :
    ∀ (hist : List Entry) (now : ℤ),
    (∀ e ∈ hist, ∃ t, e.timestamp = .dtv t ∧ now - day < t) →
    load_historical_data (save_historical_data hist) now = save_historical_data hist ∧
    ∀ t : ℤ, decodeTs (encodeTs t) = some t := by
  intro hist now h
  refine ⟨?_, decodeTs_encodeTs⟩
  rw [load_historical_data, loadGo_save now hist h]

/-- C8 witness: the amended round trip evaluated on a concrete
one-entry in-window history. -/
theorem thmC8_witness :
    load_historical_data (save_historical_data [⟨.dtv 0, .pstr []⟩]) 0 =
      save_historical_data [⟨.dtv 0, .pstr []⟩] :=
  (thmC8_amended [⟨.dtv 0, .pstr []⟩] 0 (by
    intro e he
    rw [List.mem_singleton] at he
    subst he
    exact ⟨0, rfl, by norm_num [day]⟩)).1

end HKRain
